import Mathlib

/-!
Verification development for the trading backtesting engine
(`Chapter-1/backtesting/backtest_stocks.py`, `Chapter-1/backtesting/trade_log.py`).

Prices, cash amounts and indicator values are embedded as rationals (ℚ);
share counts as integers (ℤ).  Python floor division `int(a // b)` on
positive operands is `⌊a / b⌋`.  The Python sentinel `None` is `Option`.
Each simulator loop is embedded as a structurally recursive run function
threading an explicit state record, emitting per-step snapshots and a
trade log exactly in the source's order (snapshot appended before the
step's trade logic executes, as in the source loops).
-/

namespace Backtest

/-- Trade-log action labels used by the simulators
(`'Buy'`, `'Sell'`, `'Buy (Averaging Down)'`). -/
inductive Action where
  | buy
  | sell
  | buyAvgDown
  deriving DecidableEq, Repr

/-! ## Signal generator (`generate_signals`) -/

/-- Embeds `generate_signals`: one `SignalFlag` per row (1 buy, -1 sell,
0 otherwise), first row 0, row `i ≥ 1` compares MACD (fast) against
Signal (slow) at `i-1` and `i`.  `fast`/`slow` are the `MACD` and
`Signal` columns. -/
def generate_signals (fast slow : List ℚ) : List ℤ :=
  (List.range fast.length).map fun i =>
    if i = 0 then 0
    else
      if fast.getD (i-1) 0 < slow.getD (i-1) 0 ∧ slow.getD i 0 < fast.getD i 0 then 1
      else if slow.getD (i-1) 0 < fast.getD (i-1) 0 ∧ fast.getD i 0 < slow.getD i 0 then -1
      else 0

/-! ## MACD all-in simulator (`simulate_macd_strategy`) -/

/-- Running state of `simulate_macd_strategy`:
`cash`, `shares`, `buy_price` (the recorded entry price, `None` while flat). -/
structure MacdState where
  cash : ℚ
  shares : ℤ
  buy_price : Option ℚ
  deriving DecidableEq, Repr

/-- One per-step snapshot appended by `simulate_macd_strategy`
(`PortfolioValue`, `Cash`, `Shares` columns). -/
structure MacdSnap where
  portfolioValue : ℚ
  cash : ℚ
  shares : ℤ
  deriving DecidableEq, Repr

/-- One trade-log record of `simulate_macd_strategy`
(`Action`, `Shares`, `Price`, `Signal`, `PnL`; dates are opaque payload
and omitted). -/
structure MacdTrade where
  action : Action
  shares : ℤ
  price : ℚ
  signal : ℤ
  pnl : Option ℚ
  deriving DecidableEq, Repr

/-- The trade logic of one iteration of the `simulate_macd_strategy` loop
(the part after the snapshot is appended): returns the updated state and
the appended trade record, if any. -/
def macdStep (s : MacdState) (price : ℚ) (signal : ℤ) : MacdState × Option MacdTrade :=
  if signal = 1 ∧ s.shares = 0 then
    let shares_to_buy : ℤ := ⌊s.cash / price⌋
    if 0 < shares_to_buy then
      (⟨s.cash - shares_to_buy * price, shares_to_buy, some price⟩,
       some ⟨Action.buy, shares_to_buy, price, signal, none⟩)
    else (s, none)
  else if signal = -1 ∧ 0 < s.shares then
    let pnl := (price - s.buy_price.getD 0) * s.shares
    (⟨s.cash + s.shares * price, 0, none⟩,
     some ⟨Action.sell, s.shares, price, signal, some pnl⟩)
  else (s, none)

/-- The full `simulate_macd_strategy` loop over rows `(c_price, SignalFlag)`:
appends the snapshot of the current state at the current price, then runs
the trade logic, exactly as the source iterates.  Returns the snapshot
column lists (as one list of records), the trade log, and the final state. -/
def macdRun : List (ℚ × ℤ) → MacdState → List MacdSnap × List MacdTrade × MacdState
  | [], s => ([], [], s)
  | (price, signal) :: rest, s =>
    let snap : MacdSnap := ⟨s.cash + s.shares * price, s.cash, s.shares⟩
    let step := macdStep s price signal
    let next := macdRun rest step.1
    (snap :: next.1, step.2.toList ++ next.2.1, next.2.2)

/-- `simulate_macd_strategy(df, initial_capital)`:
starts from `cash = initial_capital`, `shares = 0`, `buy_price = None`. -/
def simulate_macd_strategy (rows : List (ℚ × ℤ)) (initial_capital : ℚ) :
    List MacdSnap × List MacdTrade × MacdState :=
  macdRun rows ⟨initial_capital, 0, none⟩

/-! ## Buy-and-hold simulator (`backtest_buy_and_hold`) -/

/-- Tail of pandas `Series.pct_change`: given the previous price and the
remaining prices, the simple returns `(q - prev) / prev`. -/
def pctChangeGo : ℚ → List ℚ → List (Option ℚ)
  | _, [] => []
  | prev, q :: rest => some ((q - prev) / prev) :: pctChangeGo q rest

/-- pandas `Series.pct_change`: first element NaN (embedded as `none`),
element `i ≥ 1` is `(p_i - p_{i-1}) / p_{i-1}`. -/
def pct_change : List ℚ → List (Option ℚ)
  | [] => []
  | p :: rest => none :: pctChangeGo p rest

/-- pandas `Series.cumprod()` with its default `skipna=True`: a NaN
(`none`) entry stays NaN in the output and is skipped by the running
product; a numeric entry multiplies the accumulator. -/
def cumprodAux : ℚ → List (Option ℚ) → List (Option ℚ)
  | _, [] => []
  | acc, none :: rest => none :: cumprodAux acc rest
  | acc, some x :: rest => some (acc * x) :: cumprodAux (acc * x) rest

/-- Embeds `backtest_buy_and_hold`:
`(1 + df['c_price'].pct_change()).cumprod() * initial_capital`
(NaN propagates through `1 + ·` and the scaling). -/
def backtest_buy_and_hold (prices : List ℚ) (initial_capital : ℚ) : List (Option ℚ) :=
  (cumprodAux 1 ((pct_change prices).map (Option.map (fun r => 1 + r)))).map
    (Option.map (fun v => v * initial_capital))

/-! ## Randomized chunked simulator (`simulate_random_strategy`)

The per-step random draw (`r < 0.6` no action, `r < 0.8` buy, else sell)
is modelled by quantifying over an arbitrary per-step decision sequence. -/

/-- The per-step decision of `simulate_random_strategy`
(`"None"`, `"Buy"`, `"Sell"`). -/
inductive Decision where
  | noAction
  | buy
  | sell
  deriving DecidableEq, Repr

/-- Running state of `simulate_random_strategy`:
`cash`, `shares`, `avg_cost` (`None` before any position). -/
structure RandState where
  cash : ℚ
  shares : ℤ
  avg_cost : Option ℚ
  deriving DecidableEq, Repr

/-- One per-step snapshot appended by `simulate_random_strategy`
(`PortfolioValue`, `Cash`, `Shares`, `AvgCost` columns).  The `AvgCost`
column is appended as `avg_cost if avg_cost is not None else 0`; the
emitted dynamic value is embedded as `Option ℚ` so that the claim
"`None`, not a numeric value" is expressible — the source expression
always yields a number, i.e. always `some`. -/
structure RandSnap where
  portfolioValue : ℚ
  cash : ℚ
  shares : ℤ
  avgCost : Option ℚ
  deriving DecidableEq, Repr

/-- One trade-log record of `simulate_random_strategy`
(`Action`, `Shares`, `Price`, `Chunk`, and `NewAvgCost` on buys /
`PnL` on sells; dates omitted). -/
structure RandTrade where
  action : Action
  shares : ℤ
  price : ℚ
  chunk : ℚ
  newAvgCost : Option ℚ
  pnl : Option ℚ
  deriving DecidableEq, Repr

/-- The chunk-buy block of `simulate_random_strategy`, shared verbatim by
the `"Buy"` branch and the averaging-down half of the `"Sell"` branch
(which differ only in the logged action label `act`). -/
def chunkBuy (s : RandState) (price chunk : ℚ) (act : Action) :
    RandState × Option RandTrade :=
  if chunk ≤ s.cash then
    let shares_to_buy : ℤ := ⌊chunk / price⌋
    if 0 < shares_to_buy then
      let newAvg : ℚ :=
        if s.shares = 0 then price
        else (s.shares * s.avg_cost.getD 0 + shares_to_buy * price) / (s.shares + shares_to_buy)
      (⟨s.cash - shares_to_buy * price, s.shares + shares_to_buy, some newAvg⟩,
       some ⟨act, shares_to_buy, price, chunk, some newAvg, none⟩)
    else (s, none)
  else (s, none)

/-- The trade logic of one iteration of the `simulate_random_strategy`
loop (after the snapshot is appended), for a given drawn decision. -/
def randStep (s : RandState) (price chunk : ℚ) (d : Decision) :
    RandState × Option RandTrade :=
  match d with
  | Decision.noAction => (s, none)
  | Decision.buy => chunkBuy s price chunk Action.buy
  | Decision.sell =>
    if 0 < s.shares then
      if s.avg_cost.getD 0 < price then
        let cap : ℤ := ⌊chunk / price⌋
        let shares_to_sell : ℤ := if s.shares < cap then s.shares else cap
        if 0 < shares_to_sell then
          let pnl := (price - s.avg_cost.getD 0) * shares_to_sell
          let newShares := s.shares - shares_to_sell
          (⟨s.cash + shares_to_sell * price, newShares,
            if newShares = 0 then none else s.avg_cost⟩,
           some ⟨Action.sell, shares_to_sell, price, chunk, none, some pnl⟩)
        else (s, none)
      else chunkBuy s price chunk Action.buyAvgDown
    else (s, none)

/-- The full `simulate_random_strategy` loop over rows
`(c_price, drawn decision)`: appends the snapshot (with
`AvgCost = avg_cost if avg_cost is not None else 0`), then runs the
decision's trade logic. -/
def randRun (chunk : ℚ) :
    List (ℚ × Decision) → RandState → List RandSnap × List RandTrade × RandState
  | [], s => ([], [], s)
  | (price, d) :: rest, s =>
    let snap : RandSnap :=
      ⟨s.cash + s.shares * price, s.cash, s.shares, some (s.avg_cost.getD 0)⟩
    let step := randStep s price chunk d
    let next := randRun chunk rest step.1
    (snap :: next.1, step.2.toList ++ next.2.1, next.2.2)

/-- `simulate_random_strategy(df, initial_capital, chunk_size)`:
starts from `cash = initial_capital`, `shares = 0`, `avg_cost = None`. -/
def simulate_random_strategy (rows : List (ℚ × Decision)) (initial_capital chunk : ℚ) :
    List RandSnap × List RandTrade × RandState :=
  randRun chunk rows ⟨initial_capital, 0, none⟩

/-! ## Trade log builder (`trade_log.py`, `generate_trade_log`) -/

/-- One record of `generate_trade_log`
(`Action`, `Price`, `SignalFlag`, `PnL`; dates omitted). -/
structure TLEntry where
  action : Action
  price : ℚ
  signalFlag : ℤ
  pnl : Option ℚ
  deriving DecidableEq, Repr

/-- One iteration of the `generate_trade_log` loop: threads
`entry_price` and returns the appended record, if any. -/
def tlStep (entry_price : Option ℚ) (price : ℚ) (signal : ℤ) :
    Option ℚ × Option TLEntry :=
  if signal = 1 ∧ entry_price = none then
    (some price, some ⟨Action.buy, price, signal, none⟩)
  else if signal = -1 ∧ entry_price ≠ none then
    (none, some ⟨Action.sell, price, signal, some (price - entry_price.getD 0)⟩)
  else (entry_price, none)

/-- The `generate_trade_log` loop over rows `(c_price, SignalFlag)`
threading `entry_price` (initially `None`). -/
def tlRun : List (ℚ × ℤ) → Option ℚ → List TLEntry
  | [], _ => []
  | (price, signal) :: rest, entry_price =>
    let step := tlStep entry_price price signal
    step.2.toList ++ tlRun rest step.1

/-- `generate_trade_log(df)`: starts with no open trade. -/
def generate_trade_log (rows : List (ℚ × ℤ)) : List TLEntry :=
  tlRun rows none

/-! ## Helper lemmas -/

lemma getD_range_map {α : Type} (f : ℕ → α) (n i : ℕ) (d : α) (h : i < n) :
    ((List.range n).map f).getD i d = f i := by
  rw [List.getD_eq_getElem?_getD]
  simp [List.getElem?_range, h]

/-! ## C3: signal generator -/

/-- C3: the signal generator assigns the first observation Hold (0), and
for `i ≥ 1` assigns Buy (1) iff `fast[i-1] < slow[i-1] ∧ fast[i] > slow[i]`,
Sell (-1) iff `fast[i-1] > slow[i-1] ∧ fast[i] < slow[i]`, and Hold (0)
otherwise; the fast/slow series `[(1,2),(3,2),(1,2)]` yields `[0, 1, -1]`
(`[Hold, Buy, Sell]`). -/
theorem generate_signals_crossover (fast slow : List ℚ) (i : ℕ)
    (h1 : 1 ≤ i) (hi : i < fast.length) :
    ((generate_signals fast slow).getD i 0 = 1 ↔
       fast.getD (i-1) 0 < slow.getD (i-1) 0 ∧ slow.getD i 0 < fast.getD i 0) ∧
    ((generate_signals fast slow).getD i 0 = -1 ↔
       slow.getD (i-1) 0 < fast.getD (i-1) 0 ∧ fast.getD i 0 < slow.getD i 0) ∧
    ((generate_signals fast slow).getD i 0 = 0 ↔
       ¬(fast.getD (i-1) 0 < slow.getD (i-1) 0 ∧ slow.getD i 0 < fast.getD i 0) ∧
       ¬(slow.getD (i-1) 0 < fast.getD (i-1) 0 ∧ fast.getD i 0 < slow.getD i 0)) ∧
    (0 < fast.length → (generate_signals fast slow).getD 0 0 = 0) ∧
    generate_signals [1, 3, 1] [2, 2, 2] = [0, 1, -1] := by
  have hne : i ≠ 0 := by omega
  have key : (generate_signals fast slow).getD i 0 =
      if fast.getD (i-1) 0 < slow.getD (i-1) 0 ∧ slow.getD i 0 < fast.getD i 0 then 1
      else if slow.getD (i-1) 0 < fast.getD (i-1) 0 ∧ fast.getD i 0 < slow.getD i 0 then -1
      else 0 := by
    rw [generate_signals, getD_range_map _ _ _ _ hi, if_neg hne]
  refine ⟨?_, ?_, ?_, ?_, by decide⟩
  · rw [key]; split_ifs with hb hs
    · exact ⟨fun _ => hb, fun _ => rfl⟩
    · exact ⟨fun h => absurd h (by decide), fun h => absurd h hb⟩
    · exact ⟨fun h => absurd h (by decide), fun h => absurd h hb⟩
  · rw [key]; split_ifs with hb hs
    · exact ⟨fun h => absurd h (by decide), fun h => absurd h.1 (lt_asymm hb.1)⟩
    · exact ⟨fun _ => hs, fun _ => rfl⟩
    · exact ⟨fun h => absurd h (by decide), fun h => absurd h hs⟩
  · rw [key]; split_ifs with hb hs
    · exact ⟨fun h => absurd h (by decide), fun h => absurd hb h.1⟩
    · exact ⟨fun h => absurd h (by decide), fun h => absurd hs h.2⟩
    · exact ⟨fun _ => ⟨hb, hs⟩, fun _ => rfl⟩
  · intro hlen
    rw [generate_signals, getD_range_map _ _ _ _ hlen]
    simp

/-- Witness for C3: on the fast/slow series `[(1,2),(3,2),(1,2)]` the
second observation is a Buy. -/
theorem generate_signals_crossover_witness :
    (generate_signals [1, 3, 1] [2, 2, 2]).getD 1 0 = 1 :=
  ((generate_signals_crossover [1, 3, 1] [2, 2, 2] 1 (by decide) (by decide)).1).mpr
    (by decide)

/-! ## C1: MACD simulator state machine -/

/-- C1: the MACD simulator step is a two-state machine.  Flat
(`shares = 0`) + Buy: buy exactly `⌊cash / price⌋` whole shares at the
current price and record the entry price, or stay unchanged (no trade)
when that quantity is 0.  Long (`shares > 0`) + Sell: sell all shares at
the current price with `pnl = (price - entry) * shares` and clear the
entry price.  Every other combination changes neither cash, shares,
entry price, nor the trade log. -/
theorem macd_state_machine (s : MacdState) (price : ℚ) (signal : ℤ) :
    (signal = 1 → s.shares = 0 →
      (0 < ⌊s.cash / price⌋ →
        macdStep s price signal =
          (⟨s.cash - ⌊s.cash / price⌋ * price, ⌊s.cash / price⌋, some price⟩,
           some ⟨Action.buy, ⌊s.cash / price⌋, price, 1, none⟩)) ∧
      (⌊s.cash / price⌋ ≤ 0 → macdStep s price signal = (s, none))) ∧
    (signal = -1 → 0 < s.shares → ∀ bp, s.buy_price = some bp →
      macdStep s price signal =
        (⟨s.cash + s.shares * price, 0, none⟩,
         some ⟨Action.sell, s.shares, price, -1, some ((price - bp) * s.shares)⟩)) ∧
    (¬(signal = 1 ∧ s.shares = 0) → ¬(signal = -1 ∧ 0 < s.shares) →
      macdStep s price signal = (s, none)) := by
  refine ⟨fun h1 h0 => ⟨fun hpos => ?_, fun hnp => ?_⟩,
          fun hm1 hsh bp hbp => ?_, fun hn1 hn2 => ?_⟩
  · simp [macdStep, h1, h0, hpos]
  · simp [macdStep, h1, h0, not_lt.mpr hnp]
  · have : ¬(signal = 1 ∧ s.shares = 0) := by
      rintro ⟨h, _⟩; rw [h] at hm1; exact absurd hm1 (by decide)
    simp [macdStep, this, hm1, hsh, hbp]
  · simp [macdStep, hn1, hn2]

/-- Witness for C1: from the Flat state with cash 100 at price 10 a Buy
signal buys 10 shares. -/
theorem macd_state_machine_witness :
    macdStep ⟨100, 0, none⟩ 10 1 =
      (⟨0, 10, some 10⟩, some ⟨Action.buy, 10, 10, 1, none⟩) := by
  have h := ((macd_state_machine ⟨100, 0, none⟩ 10 1).1 rfl rfl).1 (by norm_num)
  norm_num at h
  exact h

/-! ## Snapshot indexing: each step's snapshot is built from the state
entering that step (before the step's trade logic) at that step's price. -/

/-- The simulator state entering step `i` (after the first `i` rows were
processed). -/
def macdStateAt (rows : List (ℚ × ℤ)) (s : MacdState) (i : ℕ) : MacdState :=
  (macdRun (rows.take i) s).2.2

/-- The randomized simulator state entering step `i`. -/
def randStateAt (chunk : ℚ) (rows : List (ℚ × Decision)) (s : RandState) (i : ℕ) : RandState :=
  (randRun chunk (rows.take i) s).2.2

lemma macdRun_snap_getD (rows : List (ℚ × ℤ)) : ∀ (s : MacdState) (i : ℕ), i < rows.length →
    (macdRun rows s).1.getD i ⟨0, 0, 0⟩ =
      ⟨(macdStateAt rows s i).cash + (macdStateAt rows s i).shares * (rows.getD i (0, 0)).1,
       (macdStateAt rows s i).cash, (macdStateAt rows s i).shares⟩ := by
  induction rows with
  | nil => intro s i hi; simp at hi
  | cons r rest ih =>
    intro s i hi
    obtain ⟨price, sig⟩ := r
    cases i with
    | zero => simp [macdRun, macdStateAt]
    | succ j =>
      have hj : j < rest.length := by simpa using hi
      simp only [macdRun, macdStateAt, List.take_succ_cons, List.getD_cons_succ]
      exact ih (macdStep s price sig).1 j hj

lemma randRun_snap_getD (chunk : ℚ) (rows : List (ℚ × Decision)) :
    ∀ (s : RandState) (i : ℕ), i < rows.length →
    (randRun chunk rows s).1.getD i ⟨0, 0, 0, none⟩ =
      ⟨(randStateAt chunk rows s i).cash +
         (randStateAt chunk rows s i).shares * (rows.getD i (0, Decision.noAction)).1,
       (randStateAt chunk rows s i).cash, (randStateAt chunk rows s i).shares,
       some ((randStateAt chunk rows s i).avg_cost.getD 0)⟩ := by
  induction rows with
  | nil => intro s i hi; simp at hi
  | cons r rest ih =>
    intro s i hi
    obtain ⟨price, d⟩ := r
    cases i with
    | zero => simp [randRun, randStateAt]
    | succ j =>
      have hj : j < rest.length := by simpa using hi
      simp only [randRun, randStateAt, List.take_succ_cons, List.getD_cons_succ]
      exact ih (randStep s price chunk d).1 j hj

/-! ## C2: accounting invariant -/

/-- C2: at every step of the MACD simulator and of the randomized chunked
simulator, the emitted `portfolio_value` equals `cash + shares * price`
exactly, where `cash` and `shares` are the values emitted for that same
step and `price` is that step's price. -/
theorem portfolio_value_accounting (capital chunk : ℚ) :
    (∀ rows : List (ℚ × ℤ), ∀ i, i < rows.length →
      ((simulate_macd_strategy rows capital).1.getD i ⟨0, 0, 0⟩).portfolioValue =
        ((simulate_macd_strategy rows capital).1.getD i ⟨0, 0, 0⟩).cash +
          ((simulate_macd_strategy rows capital).1.getD i ⟨0, 0, 0⟩).shares *
            (rows.getD i (0, 0)).1) ∧
    (∀ rows : List (ℚ × Decision), ∀ i, i < rows.length →
      ((simulate_random_strategy rows capital chunk).1.getD i ⟨0, 0, 0, none⟩).portfolioValue =
        ((simulate_random_strategy rows capital chunk).1.getD i ⟨0, 0, 0, none⟩).cash +
          ((simulate_random_strategy rows capital chunk).1.getD i ⟨0, 0, 0, none⟩).shares *
            (rows.getD i (0, Decision.noAction)).1) := by
  constructor
  · intro rows i hi
    rw [simulate_macd_strategy, macdRun_snap_getD rows _ i hi]
  · intro rows i hi
    rw [simulate_random_strategy, randRun_snap_getD chunk rows _ i hi]

/-- Witness for C2: the accounting invariant at step 0 of a one-row run
of each simulator. -/
theorem portfolio_value_accounting_witness :
    ((simulate_macd_strategy [(10, 0)] 100).1.getD 0 ⟨0, 0, 0⟩).portfolioValue =
      ((simulate_macd_strategy [(10, 0)] 100).1.getD 0 ⟨0, 0, 0⟩).cash +
        ((simulate_macd_strategy [(10, 0)] 100).1.getD 0 ⟨0, 0, 0⟩).shares *
          (([(10, 0)] : List (ℚ × ℤ)).getD 0 (0, 0)).1 ∧
    ((simulate_random_strategy [(10, Decision.noAction)] 100 5).1.getD 0
        ⟨0, 0, 0, none⟩).portfolioValue =
      ((simulate_random_strategy [(10, Decision.noAction)] 100 5).1.getD 0
          ⟨0, 0, 0, none⟩).cash +
        ((simulate_random_strategy [(10, Decision.noAction)] 100 5).1.getD 0
            ⟨0, 0, 0, none⟩).shares *
          (([(10, Decision.noAction)] : List (ℚ × Decision)).getD 0 (0, Decision.noAction)).1 :=
  ⟨(portfolio_value_accounting 100 5).1 [(10, 0)] 0 (by decide),
   (portfolio_value_accounting 100 5).2 [(10, Decision.noAction)] 0 (by decide)⟩

/-! ## C4: snapshot timing (corrected) -/

/-- C4 as stated is false: with prices `[10, 10, 10]`, signals
`[Hold, Buy, Sell]` and `initial_capital = 100`, the snapshot emitted at
step 2 (the Buy step) does not show cash 0 and shares 10 — the source
appends the snapshot before the step's trade executes, so it still shows
cash 100 and shares 0. -/
theorem macd_snapshot_claim_false :
    ¬(((simulate_macd_strategy [(10, 0), (10, 1), (10, -1)] 100).1.getD 1
          ⟨0, 0, 0⟩).cash = 0 ∧
      ((simulate_macd_strategy [(10, 0), (10, 1), (10, -1)] 100).1.getD 1
          ⟨0, 0, 0⟩).shares = 10) := by
  norm_num [simulate_macd_strategy, macdRun, macdStep]

/-- C4 amended: the snapshot emitted at step `i` reflects the state
*before* any trade executed at that step (at that step's price): it is
built from the state entering step `i`.  In the example run
(`[10, 10, 10]`, `[Hold, Buy, Sell]`, capital 100) the emitted per-step
states are cash 100/shares 0 at steps 1 and 2 and cash 0/shares 10 at
step 3, the final state is cash 100/shares 0, and the logged `pnl` is 0. -/
theorem macd_snapshot_pre_trade (rows : List (ℚ × ℤ)) (capital : ℚ) (i : ℕ)
    (hi : i < rows.length) :
    (simulate_macd_strategy rows capital).1.getD i ⟨0, 0, 0⟩ =
      ⟨(macdStateAt rows ⟨capital, 0, none⟩ i).cash +
         (macdStateAt rows ⟨capital, 0, none⟩ i).shares * (rows.getD i (0, 0)).1,
       (macdStateAt rows ⟨capital, 0, none⟩ i).cash,
       (macdStateAt rows ⟨capital, 0, none⟩ i).shares⟩ ∧
    simulate_macd_strategy [(10, 0), (10, 1), (10, -1)] 100 =
      ([⟨100, 100, 0⟩, ⟨100, 100, 0⟩, ⟨100, 0, 10⟩],
       [⟨Action.buy, 10, 10, 1, none⟩, ⟨Action.sell, 10, 10, -1, some 0⟩],
       ⟨100, 0, none⟩) := by
  constructor
  · rw [simulate_macd_strategy, macdRun_snap_getD rows _ i hi]
  · norm_num [simulate_macd_strategy, macdRun, macdStep]

/-- Witness for C4's amended theorem at the example run's Buy step. -/
theorem macd_snapshot_pre_trade_witness :
    (simulate_macd_strategy [(10, 0), (10, 1), (10, -1)] 100).1.getD 1 ⟨0, 0, 0⟩ =
      ⟨(macdStateAt [(10, 0), (10, 1), (10, -1)] ⟨100, 0, none⟩ 1).cash +
         (macdStateAt [(10, 0), (10, 1), (10, -1)] ⟨100, 0, none⟩ 1).shares *
           (([(10, 0), (10, 1), (10, -1)] : List (ℚ × ℤ)).getD 1 (0, 0)).1,
       (macdStateAt [(10, 0), (10, 1), (10, -1)] ⟨100, 0, none⟩ 1).cash,
       (macdStateAt [(10, 0), (10, 1), (10, -1)] ⟨100, 0, none⟩ 1).shares⟩ :=
  (macd_snapshot_pre_trade [(10, 0), (10, 1), (10, -1)] 100 1 (by decide)).1

/-! ## C5: buy-and-hold closed form (corrected) -/

/-- Modelled from the spec wording of §4.3: the compounding product
`Π (1 + return_k)` for `k = 1..m`, with `return_k` the simple percentage
price change from step `k-1` to `k`, given the first price and the
remaining prices. -/
def bhReturnProd : ℚ → List ℚ → ℕ → ℚ
  | _, _, 0 => 1
  | _, [], _ + 1 => 1
  | prev, q :: rest, m + 1 => (1 + (q - prev) / prev) * bhReturnProd q rest m

lemma getD_map_option {α β : Type} (g : α → β) (xs : List (Option α)) (i : ℕ) :
    (xs.map (Option.map g)).getD i none = Option.map g (xs.getD i none) := by
  induction xs generalizing i with
  | nil => simp
  | cons x rest ih =>
    cases i with
    | zero => simp
    | succ j => simpa using ih j

lemma cumprod_pctGo (rest : List ℚ) : ∀ (prev acc : ℚ) (i : ℕ), i < rest.length →
    (cumprodAux acc ((pctChangeGo prev rest).map (Option.map (fun r => 1 + r)))).getD i none
      = some (acc * bhReturnProd prev rest (i + 1)) := by
  induction rest with
  | nil => intro prev acc i hi; simp at hi
  | cons q rest ih =>
    intro prev acc i hi
    cases i with
    | zero => simp [pctChangeGo, cumprodAux, bhReturnProd]
    | succ j =>
      have hj : j < rest.length := by simpa using hi
      simp only [pctChangeGo, List.map_cons, Option.map_some', cumprodAux,
        List.getD_cons_succ]
      rw [ih q (acc * (1 + (q - prev) / prev)) j hj]
      congr 1
      rw [bhReturnProd]
      ring

/-- C5 as stated is false at the first step: for prices `[100, 110, 99]`
and capital 1000 the first emitted portfolio value is NaN (the undefined
first return propagates through the cumulative product), not 1000. -/
theorem bh_first_step_claim_false :
    ¬((backtest_buy_and_hold [100, 110, 99] 1000).getD 0 none = some 1000) := by
  norm_num [backtest_buy_and_hold, pct_change, pctChangeGo, cumprodAux]
  exact fun h => Option.noConfusion h

/-- C5 amended: the buy-and-hold portfolio value at step `i ≥ 1` equals
`initial_capital * Π (1 + return_k)` for `k = 1..i`; the first step's
value is NaN (`none`) — pandas `pct_change` yields NaN there and
`cumprod` keeps it — rather than acting as a no-op multiplier of 1.  For
prices `[100, 110, 99]` and capital 1000 the values are
`[NaN, 1100, 990]`. -/
theorem bh_closed_form (p : ℚ) (rest : List ℚ) (capital : ℚ) :
    (backtest_buy_and_hold (p :: rest) capital).getD 0 none = none ∧
    (∀ i, i < rest.length →
      (backtest_buy_and_hold (p :: rest) capital).getD (i + 1) none =
        some (capital * bhReturnProd p rest (i + 1))) ∧
    backtest_buy_and_hold [100, 110, 99] 1000 = [none, some 1100, some 990] := by
  refine ⟨?_, ?_, by norm_num [backtest_buy_and_hold, pct_change, pctChangeGo, cumprodAux]⟩
  · simp [backtest_buy_and_hold, pct_change, cumprodAux]
  · intro i hi
    show ((cumprodAux 1 ((pct_change (p :: rest)).map (Option.map fun r => 1 + r))).map
      (Option.map fun v => v * capital)).getD (i + 1) none = _
    rw [getD_map_option]
    simp only [pct_change, List.map_cons, Option.map_none', cumprodAux,
      List.getD_cons_succ]
    rw [cumprod_pctGo rest p 1 i hi]
    simp only [Option.map_some']
    congr 1
    ring

/-- Witness for C5's amended theorem: step 1 of the example run is 1100. -/
theorem bh_closed_form_witness :
    (backtest_buy_and_hold [100, 110, 99] 1000).getD 1 none =
      some (1000 * bhReturnProd 100 [110, 99] 1) :=
  (bh_closed_form 100 [110, 99] 1000).2.1 0 (by decide)

/-! ## C6: randomized chunked simulator cases -/

/-- C6: in the chunked simulator, a Buy decision with `cash ≥ chunk_size`
buys `⌊chunk_size / price⌋` shares (no-op when that is 0, or when
`cash < chunk_size`) and sets `avg_cost` to the volume-weighted average
of the existing and new lots (the new price when flat); a Sell decision
with `shares > 0` and `price > avg_cost` sells
`min ⌊chunk_size / price⌋ shares` shares with
`pnl = (price - avg_cost) * shares_sold`, clearing `avg_cost` exactly
when the position is fully closed (no-op when the sell quantity is 0); a
Sell decision with `shares > 0` and `price ≤ avg_cost` performs the same
chunk buy logged as averaging down (hence a no-op without sufficient
cash); Sell with `shares = 0` and a None decision are no-ops. -/
theorem rand_step_cases (s : RandState) (price chunk : ℚ) :
    (∀ act : Action, (chunk ≤ s.cash →
        (0 < ⌊chunk / price⌋ →
          chunkBuy s price chunk act =
            (⟨s.cash - ⌊chunk / price⌋ * price, s.shares + ⌊chunk / price⌋,
              some (if s.shares = 0 then price
                else (s.shares * s.avg_cost.getD 0 + ⌊chunk / price⌋ * price) /
                  (s.shares + ⌊chunk / price⌋))⟩,
             some ⟨act, ⌊chunk / price⌋, price, chunk,
               some (if s.shares = 0 then price
                 else (s.shares * s.avg_cost.getD 0 + ⌊chunk / price⌋ * price) /
                   (s.shares + ⌊chunk / price⌋)), none⟩)) ∧
        (⌊chunk / price⌋ ≤ 0 → chunkBuy s price chunk act = (s, none))) ∧
      (s.cash < chunk → chunkBuy s price chunk act = (s, none))) ∧
    randStep s price chunk Decision.buy = chunkBuy s price chunk Action.buy ∧
    (∀ a, s.avg_cost = some a → 0 < s.shares → a < price →
      (0 < min ⌊chunk / price⌋ s.shares →
        randStep s price chunk Decision.sell =
          (⟨s.cash + min ⌊chunk / price⌋ s.shares * price,
            s.shares - min ⌊chunk / price⌋ s.shares,
            if s.shares - min ⌊chunk / price⌋ s.shares = 0 then none else some a⟩,
           some ⟨Action.sell, min ⌊chunk / price⌋ s.shares, price, chunk, none,
             some ((price - a) * min ⌊chunk / price⌋ s.shares)⟩)) ∧
      (min ⌊chunk / price⌋ s.shares ≤ 0 →
        randStep s price chunk Decision.sell = (s, none))) ∧
    (∀ a, s.avg_cost = some a → 0 < s.shares → price ≤ a →
      randStep s price chunk Decision.sell = chunkBuy s price chunk Action.buyAvgDown) ∧
    (s.shares = 0 → randStep s price chunk Decision.sell = (s, none)) ∧
    randStep s price chunk Decision.noAction = (s, none) := by
  have hmin : (if s.shares < ⌊chunk / price⌋ then s.shares else ⌊chunk / price⌋) =
      min ⌊chunk / price⌋ s.shares := by
    split_ifs with h
    · exact (min_eq_right h.le).symm
    · exact (min_eq_left (not_lt.mp h)).symm
  refine ⟨fun act => ⟨fun hcash => ⟨fun hpos => ?_, fun hnp => ?_⟩, fun hlt => ?_⟩,
          rfl, fun a ha hsh hlt => ⟨fun hpos => ?_, fun hnp => ?_⟩,
          fun a ha hsh hle => ?_, fun h0 => ?_, rfl⟩
  · simp [chunkBuy, hcash, hpos]
  · simp [chunkBuy, hcash, not_lt.mpr hnp]
  · simp [chunkBuy, not_le.mpr hlt]
  · simp only [randStep, if_pos hsh, ha, Option.getD_some, if_pos hlt, hmin, if_pos hpos]
  · simp only [randStep, if_pos hsh, ha, Option.getD_some, if_pos hlt, hmin,
      if_neg (not_lt.mpr hnp)]
  · simp only [randStep, if_pos hsh, ha, Option.getD_some, if_neg (not_lt.mpr hle)]
  · simp [randStep, h0]

/-- Witness for C6: buying one 5000-chunk at price 10 from 10000 cash
while flat buys 500 shares at average cost 10. -/
theorem rand_step_cases_witness :
    chunkBuy ⟨10000, 0, none⟩ 10 5000 Action.buy =
      (⟨5000, 500, some 10⟩, some ⟨Action.buy, 500, 10, 5000, some 10, none⟩) := by
  have h := (((rand_step_cases ⟨10000, 0, none⟩ 10 5000).1 Action.buy).1
    (by norm_num)).1 (by norm_num)
  norm_num at h
  exact h

/-! ## C7: the chunked simulator never logs a negative pnl -/

lemma chunkBuy_pnl_none (s : RandState) (price chunk : ℚ) (act : Action) (tr : RandTrade)
    (htr : (chunkBuy s price chunk act).2 = some tr) : tr.pnl = none := by
  simp only [chunkBuy] at htr
  split_ifs at htr with h1 h2 h3
  · exact (Option.some.inj htr) ▸ rfl
  · exact (Option.some.inj htr) ▸ rfl

lemma randStep_log_pnl (s : RandState) (price chunk : ℚ) (d : Decision) (tr : RandTrade)
    (htr : (randStep s price chunk d).2 = some tr) :
    (∀ v, tr.pnl = some v → 0 ≤ v) ∧ (tr.pnl ≠ none → tr.action = Action.sell) := by
  cases d with
  | noAction => simp [randStep] at htr
  | buy =>
    have h := chunkBuy_pnl_none s price chunk Action.buy tr htr
    exact ⟨fun v hv => absurd (h ▸ hv) (by simp), fun hne => absurd h hne⟩
  | sell =>
    have hmin : (if s.shares < ⌊chunk / price⌋ then s.shares else ⌊chunk / price⌋) =
        min ⌊chunk / price⌋ s.shares := by
      split_ifs with h
      · exact (min_eq_right h.le).symm
      · exact (min_eq_left (not_lt.mp h)).symm
    simp only [randStep, hmin] at htr
    split_ifs at htr with h1 h2 h3 h4
    · obtain rfl := Option.some.inj htr
      refine ⟨fun v hv => ?_, fun _ => rfl⟩
      obtain rfl := Option.some.inj hv
      have hq : (0 : ℚ) < (min ⌊chunk / price⌋ s.shares : ℤ) := by exact_mod_cast h3
      exact le_of_lt (mul_pos (sub_pos.mpr h2) hq)
    · obtain rfl := Option.some.inj htr
      refine ⟨fun v hv => ?_, fun _ => rfl⟩
      obtain rfl := Option.some.inj hv
      have hq : (0 : ℚ) < (min ⌊chunk / price⌋ s.shares : ℤ) := by exact_mod_cast h3
      exact le_of_lt (mul_pos (sub_pos.mpr h2) hq)
    · have h := chunkBuy_pnl_none s price chunk Action.buyAvgDown tr htr
      exact ⟨fun v hv => absurd (h ▸ hv) (by simp), fun hne => absurd h hne⟩

/-- C7: for every input series and every sequence of decisions, the
chunked simulator never appends a trade log entry with a negative pnl;
pnl is populated only on Sell entries, and those execute only with
`price > avg_cost`, so every populated pnl is nonnegative. -/
theorem rand_no_negative_pnl (chunk : ℚ) (rows : List (ℚ × Decision)) (s : RandState) :
    ∀ tr ∈ (randRun chunk rows s).2.1,
      (∀ v, tr.pnl = some v → 0 ≤ v) ∧ (tr.pnl ≠ none → tr.action = Action.sell) := by
  induction rows generalizing s with
  | nil => intro tr htr; simp [randRun] at htr
  | cons r rest ih =>
    intro tr htr
    obtain ⟨price, d⟩ := r
    simp only [randRun, List.mem_append] at htr
    rcases htr with h | h
    · simp only [Option.mem_toList, Option.mem_def] at h
      exact randStep_log_pnl s price chunk d tr h
    · exact ih (randStep s price chunk d).1 tr h

/-- Witness for C7: a run that does log a sale shows a nonnegative pnl. -/
theorem rand_no_negative_pnl_witness : (0 : ℚ) ≤ 5 :=
  ((rand_no_negative_pnl 10 [(2, Decision.sell)] ⟨0, 5, some 1⟩
      ⟨Action.sell, 5, 2, 10, none, some 5⟩ (by norm_num [randRun, randStep])).1 5 rfl)

/-! ## C8: cash never goes negative -/

lemma floor_mul_le (c p : ℚ) (hp : 0 < p) : (⌊c / p⌋ : ℚ) * p ≤ c := by
  have h := Int.floor_le (c / p)
  calc (⌊c / p⌋ : ℚ) * p ≤ c / p * p := mul_le_mul_of_nonneg_right h hp.le
    _ = c := div_mul_cancel₀ c hp.ne'

lemma macdStep_cash_nonneg (s : MacdState) (price : ℚ) (sig : ℤ)
    (hp : 0 < price) (hc : 0 ≤ s.cash) : 0 ≤ (macdStep s price sig).1.cash := by
  simp only [macdStep]
  split_ifs with h1 h2 h3
  · dsimp only
    have hfl := floor_mul_le s.cash price hp
    linarith
  · exact hc
  · dsimp only
    have hsh : (0 : ℚ) < (s.shares : ℚ) := by exact_mod_cast h3.2
    nlinarith
  · exact hc

lemma chunkBuy_cash_nonneg (s : RandState) (price chunk : ℚ) (act : Action)
    (hp : 0 < price) (hc : 0 ≤ s.cash) : 0 ≤ (chunkBuy s price chunk act).1.cash := by
  simp only [chunkBuy]
  split_ifs with h1 h2 h3
  · dsimp only
    have hfl := floor_mul_le chunk price hp
    linarith
  · dsimp only
    have hfl := floor_mul_le chunk price hp
    linarith
  · exact hc
  · exact hc

lemma randStep_cash_nonneg (s : RandState) (price chunk : ℚ) (d : Decision)
    (hp : 0 < price) (hc : 0 ≤ s.cash) : 0 ≤ (randStep s price chunk d).1.cash := by
  cases d with
  | noAction => exact hc
  | buy => exact chunkBuy_cash_nonneg s price chunk Action.buy hp hc
  | sell =>
    have hmin : (if s.shares < ⌊chunk / price⌋ then s.shares else ⌊chunk / price⌋) =
        min ⌊chunk / price⌋ s.shares := by
      split_ifs with h
      · exact (min_eq_right h.le).symm
      · exact (min_eq_left (not_lt.mp h)).symm
    simp only [randStep, hmin]
    split_ifs with h1 h2 h3 h4
    · dsimp only
      have hn : (0 : ℚ) < ((min ⌊chunk / price⌋ s.shares : ℤ) : ℚ) := by exact_mod_cast h3
      nlinarith
    · dsimp only
      have hn : (0 : ℚ) < ((min ⌊chunk / price⌋ s.shares : ℤ) : ℚ) := by exact_mod_cast h3
      nlinarith
    · exact hc
    · exact chunkBuy_cash_nonneg s price chunk Action.buyAvgDown hp hc
    · exact hc

lemma macdRun_cash_nonneg (rows : List (ℚ × ℤ)) : ∀ s : MacdState,
    (∀ r ∈ rows, 0 < r.1) → 0 ≤ s.cash →
    (∀ snap ∈ (macdRun rows s).1, 0 ≤ snap.cash) ∧ 0 ≤ (macdRun rows s).2.2.cash := by
  induction rows with
  | nil => exact fun s _ hc => ⟨by simp [macdRun], hc⟩
  | cons r rest ih =>
    intro s hp hc
    obtain ⟨price, sig⟩ := r
    have hp0 : 0 < price := hp (price, sig) (by simp)
    have hstep := macdStep_cash_nonneg s price sig hp0 hc
    have hrest := ih (macdStep s price sig).1 (fun q hq => hp q (by simp [hq])) hstep
    refine ⟨fun snap hsnap => ?_, by simpa [macdRun] using hrest.2⟩
    simp only [macdRun, List.mem_cons] at hsnap
    rcases hsnap with rfl | h
    · exact hc
    · exact hrest.1 snap h

lemma randRun_cash_nonneg (chunk : ℚ) (rows : List (ℚ × Decision)) : ∀ s : RandState,
    (∀ r ∈ rows, 0 < r.1) → 0 ≤ s.cash →
    (∀ snap ∈ (randRun chunk rows s).1, 0 ≤ snap.cash) ∧
      0 ≤ (randRun chunk rows s).2.2.cash := by
  induction rows with
  | nil => exact fun s _ hc => ⟨by simp [randRun], hc⟩
  | cons r rest ih =>
    intro s hp hc
    obtain ⟨price, d⟩ := r
    have hp0 : 0 < price := hp (price, d) (by simp)
    have hstep := randStep_cash_nonneg s price chunk d hp0 hc
    have hrest := ih (randStep s price chunk d).1 (fun q hq => hp q (by simp [hq])) hstep
    refine ⟨fun snap hsnap => ?_, by simpa [randRun] using hrest.2⟩
    simp only [randRun, List.mem_cons] at hsnap
    rcases hsnap with rfl | h
    · exact hc
    · exact hrest.1 snap h

/-- C8: with all prices positive (and a nonnegative starting capital, as
§6 requires `initial_capital > 0`), cash is nonnegative at every emitted
step and at the end of both the MACD simulator and the randomized
chunked simulator, for any decision sequence: every buy quantity is
capped by affordability. -/
theorem cash_never_negative (rows : List (ℚ × ℤ)) (rrows : List (ℚ × Decision))
    (capital chunk : ℚ) (hcap : 0 ≤ capital)
    (hp : ∀ r ∈ rows, 0 < r.1) (hrp : ∀ r ∈ rrows, 0 < r.1) :
    (∀ snap ∈ (simulate_macd_strategy rows capital).1, 0 ≤ snap.cash) ∧
    0 ≤ (simulate_macd_strategy rows capital).2.2.cash ∧
    (∀ snap ∈ (simulate_random_strategy rrows capital chunk).1, 0 ≤ snap.cash) ∧
    0 ≤ (simulate_random_strategy rrows capital chunk).2.2.cash := by
  have h1 := macdRun_cash_nonneg rows ⟨capital, 0, none⟩ hp hcap
  have h2 := randRun_cash_nonneg chunk rrows ⟨capital, 0, none⟩ hrp hcap
  exact ⟨h1.1, h1.2, h2.1, h2.2⟩

/-- Witness for C8: a run that buys on the first step ends with
nonnegative cash. -/
theorem cash_never_negative_witness :
    0 ≤ (simulate_macd_strategy [((10 : ℚ), (1 : ℤ))] 100).2.2.cash :=
  (cash_never_negative [((10 : ℚ), (1 : ℤ))] [((10 : ℚ), Decision.buy)] 100 5
    (by norm_num) (by intro r hr; simp at hr; rw [hr]; norm_num)
    (by intro r hr; simp at hr; rw [hr]; norm_num)).2.1

/-! ## C9: trade log pairing -/

/-- Strict alternation of log actions: when `expectBuy` is true the next
entry must be a Buy, then a Sell, and so on. -/
def AltFrom : Bool → List Action → Prop
  | _, [] => True
  | true, a :: rest => a = Action.buy ∧ AltFrom false rest
  | false, a :: rest => a = Action.sell ∧ AltFrom true rest

lemma altFrom_count (l : List Action) : ∀ b : Bool, AltFrom b l →
    l.count Action.sell ≤ l.count Action.buy + (if b then 0 else 1) := by
  induction l with
  | nil => intro b _; simp
  | cons a rest ih =>
    intro b hb
    cases b with
    | true =>
      obtain ⟨rfl, hr⟩ := hb
      have h := ih false hr
      simp only [List.count_cons] at h ⊢
      simp at h ⊢
      omega
    | false =>
      obtain ⟨rfl, hr⟩ := hb
      have h := ih true hr
      simp only [List.count_cons] at h ⊢
      simp at h ⊢
      omega

lemma tlRun_alt (rows : List (ℚ × ℤ)) : ∀ entry : Option ℚ,
    (entry = none → AltFrom true ((tlRun rows entry).map TLEntry.action)) ∧
    (∀ p, entry = some p → AltFrom false ((tlRun rows entry).map TLEntry.action)) := by
  induction rows with
  | nil => intro entry; constructor <;> simp [tlRun, AltFrom]
  | cons r rest ih =>
    intro entry
    obtain ⟨price, sig⟩ := r
    constructor
    · rintro rfl
      by_cases h1 : sig = 1
      · have hstep : tlStep none price sig =
            (some price, some ⟨Action.buy, price, sig, none⟩) := by
          simp [tlStep, h1]
        simp only [tlRun, hstep, Option.toList_some, List.singleton_append,
          List.map_cons]
        exact ⟨rfl, (ih (some price)).2 price rfl⟩
      · have hstep : tlStep none price sig = (none, none) := by
          simp [tlStep, h1]
        simp only [tlRun, hstep, Option.toList_none, List.nil_append]
        exact (ih none).1 rfl
    · rintro p rfl
      by_cases h1 : sig = -1
      · have hstep : tlStep (some p) price sig =
            (none, some ⟨Action.sell, price, sig, some (price - p)⟩) := by
          simp [tlStep, h1]
        simp only [tlRun, hstep, Option.toList_some, List.singleton_append,
          List.map_cons]
        exact ⟨rfl, (ih none).1 rfl⟩
      · have hstep : tlStep (some p) price sig = (some p, none) := by
          simp [tlStep, h1]
        simp only [tlRun, hstep, Option.toList_none, List.nil_append]
        exact (ih (some p)).2 p rfl

lemma macdRun_log_alt (rows : List (ℚ × ℤ)) : ∀ s : MacdState,
    (s.shares ≤ 0 → AltFrom true ((macdRun rows s).2.1.map MacdTrade.action)) ∧
    (0 < s.shares → AltFrom false ((macdRun rows s).2.1.map MacdTrade.action)) := by
  induction rows with
  | nil => intro s; constructor <;> intro _ <;> simp [macdRun, AltFrom]
  | cons r rest ih =>
    intro s
    obtain ⟨price, sig⟩ := r
    constructor
    · intro hs
      by_cases h1 : sig = 1 ∧ s.shares = 0
      · by_cases h2 : 0 < ⌊s.cash / price⌋
        · simp only [macdRun, macdStep, if_pos h1, if_pos h2, Option.toList_some,
            List.singleton_append, List.map_cons]
          exact ⟨rfl, (ih _).2 h2⟩
        · simp only [macdRun, macdStep, if_pos h1, if_neg h2, Option.toList_none,
            List.nil_append]
          exact (ih s).1 hs
      · have h2 : ¬(sig = -1 ∧ 0 < s.shares) := fun hcon => absurd hcon.2 (not_lt.mpr hs)
        simp only [macdRun, macdStep, if_neg h1, if_neg h2, Option.toList_none,
          List.nil_append]
        exact (ih s).1 hs
    · intro hs
      have hc1 : ¬(sig = 1 ∧ s.shares = 0) := fun hcon => by
        rw [hcon.2] at hs; exact absurd hs (lt_irrefl 0)
      by_cases h1 : sig = -1
      · simp only [macdRun, macdStep, if_neg hc1, if_pos (And.intro h1 hs),
          Option.toList_some, List.singleton_append, List.map_cons]
        exact ⟨rfl, (ih _).1 (le_refl 0)⟩
      · have hc2 : ¬(sig = -1 ∧ 0 < s.shares) := fun hcon => h1 hcon.1
        simp only [macdRun, macdStep, if_neg hc1, if_neg hc2, Option.toList_none,
          List.nil_append]
        exact (ih s).2 hs

/-- C9: for any signal sequence, the trade-log builder's log and the MACD
simulator's log strictly alternate starting with Buy (consecutive Buy
signals while a trade is open are ignored), and in particular the number
of Sell entries never exceeds the number of Buy entries. -/
theorem trade_log_pairing (rows : List (ℚ × ℤ)) (capital : ℚ) :
    AltFrom true ((generate_trade_log rows).map TLEntry.action) ∧
    ((generate_trade_log rows).map TLEntry.action).count Action.sell ≤
      ((generate_trade_log rows).map TLEntry.action).count Action.buy ∧
    AltFrom true ((simulate_macd_strategy rows capital).2.1.map MacdTrade.action) ∧
    ((simulate_macd_strategy rows capital).2.1.map MacdTrade.action).count Action.sell ≤
      ((simulate_macd_strategy rows capital).2.1.map MacdTrade.action).count Action.buy := by
  have h1 := (tlRun_alt rows none).1 rfl
  have h2 := (macdRun_log_alt rows ⟨capital, 0, none⟩).1 (le_refl 0)
  have c1 := altFrom_count _ true h1
  have c2 := altFrom_count _ true h2
  simp only [if_pos rfl, Nat.add_zero] at c1 c2
  exact ⟨h1, by simpa using c1, h2, by simpa using c2⟩

/-! ## C10: emitted AvgCost while flat (corrected) -/

/-- C10 as stated is false: at the very first step of a run (flat,
`shares = 0`) the emitted `AvgCost` value is the number 0, not `None` —
the source appends `avg_cost if avg_cost is not None else 0`. -/
theorem rand_avgcost_claim_false :
    ((simulate_random_strategy [((10 : ℚ), Decision.noAction)] 100000 5000).1.getD 0
        ⟨0, 0, 0, none⟩).shares = 0 ∧
    ((simulate_random_strategy [((10 : ℚ), Decision.noAction)] 100000 5000).1.getD 0
        ⟨0, 0, 0, none⟩).avgCost ≠ none := by
  constructor
  · norm_num [simulate_random_strategy, randRun, randStep]
  · norm_num [simulate_random_strategy, randRun, randStep]
    exact Option.some_ne_none 0

/-- The internal state invariant of `simulate_random_strategy`: shares
are nonnegative and the internal `avg_cost` is `None` while flat. -/
def RandInv (s : RandState) : Prop := 0 ≤ s.shares ∧ (s.shares = 0 → s.avg_cost = none)

lemma chunkBuy_inv (s : RandState) (price chunk : ℚ) (act : Action)
    (h : RandInv s) : RandInv (chunkBuy s price chunk act).1 := by
  obtain ⟨hsh, havg⟩ := h
  simp only [chunkBuy]
  split_ifs with h1 h2 h3
  · refine ⟨?_, fun hz => ?_⟩
    · dsimp only; omega
    · dsimp only at hz; exact absurd hz (by omega)
  · refine ⟨?_, fun hz => ?_⟩
    · dsimp only; omega
    · dsimp only at hz; exact absurd hz (by omega)
  · exact ⟨hsh, havg⟩
  · exact ⟨hsh, havg⟩

lemma randStep_inv (s : RandState) (price chunk : ℚ) (d : Decision)
    (h : RandInv s) : RandInv (randStep s price chunk d).1 := by
  cases d with
  | noAction => exact h
  | buy => exact chunkBuy_inv s price chunk Action.buy h
  | sell =>
    have hmin : (if s.shares < ⌊chunk / price⌋ then s.shares else ⌊chunk / price⌋) =
        min ⌊chunk / price⌋ s.shares := by
      split_ifs with hx
      · exact (min_eq_right hx.le).symm
      · exact (min_eq_left (not_lt.mp hx)).symm
    obtain ⟨hsh, havg⟩ := h
    simp only [randStep, hmin]
    split_ifs with h1 h2 h3 h4
    · refine ⟨?_, fun hz => ?_⟩
      · dsimp only
        have hle : min ⌊chunk / price⌋ s.shares ≤ s.shares := min_le_right _ _
        omega
      · dsimp only
    · refine ⟨?_, fun hz => ?_⟩
      · dsimp only
        have hle : min ⌊chunk / price⌋ s.shares ≤ s.shares := min_le_right _ _
        omega
      · dsimp only at hz
        exact absurd hz h4
    · exact ⟨hsh, havg⟩
    · exact chunkBuy_inv s price chunk Action.buyAvgDown ⟨hsh, havg⟩
    · exact ⟨hsh, havg⟩

lemma randRun_avgcost (chunk : ℚ) (rows : List (ℚ × Decision)) : ∀ s : RandState,
    RandInv s → ∀ snap ∈ (randRun chunk rows s).1,
      snap.shares = 0 → snap.avgCost = some 0 := by
  induction rows with
  | nil => intro s _ snap hsnap; simp [randRun] at hsnap
  | cons r rest ih =>
    intro s hinv snap hsnap hz
    obtain ⟨price, d⟩ := r
    simp only [randRun, List.mem_cons] at hsnap
    rcases hsnap with rfl | h
    · dsimp only at hz ⊢
      rw [hinv.2 hz]
      rfl
    · exact ih (randStep s price chunk d).1 (randStep_inv s price chunk d hinv) snap h hz

/-- C10 amended: the emitted `AvgCost` value is always numeric — `None`
is coalesced to 0 on emission — so at every step where `shares = 0` the
emitted `AvgCost` is the number 0 (while the *internal* `avg_cost` state
is `None` whenever `shares = 0`). -/
theorem rand_avgcost_zero_when_flat (chunk : ℚ) (rows : List (ℚ × Decision)) (capital : ℚ) :
    ∀ snap ∈ (simulate_random_strategy rows capital chunk).1,
      snap.shares = 0 → snap.avgCost = some 0 :=
  randRun_avgcost chunk rows ⟨capital, 0, none⟩ ⟨le_refl 0, fun _ => rfl⟩

/-- Witness for C10's amended theorem: the first (flat) snapshot of a
one-step run emits `AvgCost = 0`. -/
theorem rand_avgcost_zero_when_flat_witness :
    (⟨100000, 100000, 0, some 0⟩ : RandSnap).avgCost = some 0 :=
  rand_avgcost_zero_when_flat 5000 [((10 : ℚ), Decision.noAction)] 100000
    ⟨100000, 100000, 0, some 0⟩
    (by norm_num [simulate_random_strategy, randRun, randStep]) rfl

end Backtest
